import Mathlib

/-!
Verification development for the cube client repository.

The corpus consists of documentation plus the client build pipeline
(`rollup.config.js`).  The pre-aggregation caching/refresh engine is
described by the specification only, so its data model and operations
are modelled from the spec; the build pipeline is embedded directly
from `rollup.config.js`.
-/

set_option maxHeartbeats 1000000

/-! ## Build pipeline embedding (`rollup.config.js`) -/

/-- Output module format of a rollup build (`format` field). -/
inductive ModuleFormat
  | umd
  | cjs
  | es
deriving DecidableEq, Repr

/-- One element of a rollup `output` array. -/
structure OutputSpec where
  file : String
  format : ModuleFormat
  globalName : Option String
  sourcemap : Bool
  globals : List (String × String)
deriving DecidableEq, Repr

/-- Base configuration passed to `bundle` (`input`, `external`, `globals`). -/
structure BaseConfig where
  input : String
  external : List String
  globals : List (String × String)
deriving DecidableEq, Repr

/-- One build configuration produced by `bundle`. -/
structure BuildConfig where
  input : String
  external : List String
  output : List OutputSpec
deriving DecidableEq, Repr

/-- Embedding of `bundle` from `rollup.config.js`: returns the UMD and
CommonJS builds, plus an ES-module build unless the package is
`cubejs-client-core` (which is built with typescript instead). -/
def bundle (name globalName : String) (baseConfig : BaseConfig)
    (umdConfig : Option BaseConfig) : List BuildConfig :=
  let baseUmd := umdConfig.getD baseConfig
  let skipEsModule := name == "cubejs-client-core"
  let umdBuild : BuildConfig :=
    { input := baseUmd.input
      external := baseUmd.external
      output := [{ file := "packages/" ++ name ++ "/dist/" ++ name ++ ".umd.js"
                   format := ModuleFormat.umd
                   globalName := some globalName
                   sourcemap := true
                   globals := [] }] }
  let cjsBuild : BuildConfig :=
    { input := baseConfig.input
      external := baseConfig.external
      output := [{ file := "packages/" ++ name ++ "/dist/" ++ name ++ ".cjs.js"
                   format := ModuleFormat.cjs
                   globalName := none
                   sourcemap := true
                   globals := [] }] }
  let esBuild : BuildConfig :=
    { input := baseConfig.input
      external := baseConfig.external
      output := [{ file := "packages/" ++ name ++ "/dist/" ++ name ++ ".esm.js"
                   format := ModuleFormat.es
                   globalName := none
                   sourcemap := true
                   globals := baseConfig.globals }] }
  if !skipEsModule then [umdBuild, cjsBuild] ++ [esBuild] else [umdBuild, cjsBuild]

/-- Embedding of the default export of `rollup.config.js`: the
concatenation of the `bundle` results for the five client packages. -/
def defaultExport : List BuildConfig :=
  bundle "cubejs-client-core" "cubejs"
      { input := "packages/cubejs-client-core/src/index.ts", external := [], globals := [] }
      (some { input := "packages/cubejs-client-core/src/index.umd.ts", external := [], globals := [] })
  ++ bundle "cubejs-client-ws-transport" "CubejsWebSocketTransport"
      { input := "packages/cubejs-client-ws-transport/src/index.ts", external := [], globals := [] }
      none
  ++ bundle "cubejs-client-react" "cubejsReact"
      { input := "packages/cubejs-client-react/src/index.js", external := ["react", "prop-types"], globals := [] }
      none
  ++ bundle "cubejs-client-vue" "cubejsVue"
      { input := "packages/cubejs-client-vue/src/index.js", external := ["vue"], globals := [("vue", "Vue")] }
      none
  ++ bundle "cubejs-client-vue3" "cubejsVue3"
      { input := "packages/cubejs-client-vue3/src/index.js", external := ["vue"], globals := [("vue", "Vue")] }
      none

/-- Whether a build configuration contains an output in the given format. -/
def hasFormat (c : BuildConfig) (f : ModuleFormat) : Bool :=
  c.output.any (fun o => o.format == f)

/-- C10: `bundle` always emits a UMD build and a CommonJS build, emits an
ES-module build exactly when the package is not `cubejs-client-core`, and
the default export therefore lists exactly 14 build configurations. -/
theorem bundle_formats_and_default_export_length
    (name globalName : String) (baseConfig : BaseConfig) (umdConfig : Option BaseConfig) :
    ((bundle name globalName baseConfig umdConfig).any (fun c => hasFormat c ModuleFormat.umd)
      = true)
    ∧ ((bundle name globalName baseConfig umdConfig).any (fun c => hasFormat c ModuleFormat.cjs)
      = true)
    ∧ (((bundle name globalName baseConfig umdConfig).any (fun c => hasFormat c ModuleFormat.es)
      = true) ↔ name ≠ "cubejs-client-core")
    ∧ defaultExport.length = 14 := by
  refine ⟨?_, ?_, ?_, ?_⟩
  · by_cases h : name = "cubejs-client-core" <;>
      simp [bundle, hasFormat, h, List.any]
  · by_cases h : name = "cubejs-client-core" <;>
      simp [bundle, hasFormat, h, List.any]
  · by_cases h : name = "cubejs-client-core" <;>
      simp [bundle, hasFormat, h, List.any]
  · rfl

/-! ## Pre-aggregation engine data model (modelled from the spec) -/

/-- Modelled from the spec: `TenantIsolationKey`, a derived key
(app id + orchestrator id) scoping a store namespace (spec section 3). -/
structure TenantIsolationKey where
  appId : String
  orchestratorId : String
deriving DecidableEq, Repr

/-- Modelled from the spec: tri-state result of a user-supplied
condition predicate (spec section 9): fresh, stale, or
unknown-due-to-error. -/
inductive CondResult
  | fresh
  | stale
  | unknownError
deriving DecidableEq, Repr

/-- Modelled from the spec: refresh policy kind (spec section 4.2): a
schedule interval, a condition callback outcome, or an external
trigger flag (with its received-invalidation state). -/
inductive PolicyKind
  | schedule (interval : Nat)
  | condition (outcome : CondResult)
  | externalTrigger (invalidated : Bool)
deriving DecidableEq, Repr

/-- Modelled from the spec: a refresh policy: its kind and the
update-window width in partitions (spec sections 3 and 4.2). -/
structure RefreshPolicy where
  kind : PolicyKind
  updateWindow : Nat
deriving DecidableEq, Repr

/-- Modelled from the spec: `PreAggregationDefinition` (spec section 3):
identifier, dimensions/measures selected, partition granularity,
refresh policy. -/
structure PreAggregationDefinition where
  id : String
  measures : List String
  dimensions : List String
  granularity : Nat
  policy : RefreshPolicy
deriving DecidableEq, Repr

/-- Modelled from the spec: `PartitionKey`, mapping a definition, a
tenant and a time bucket to a stable storage identifier
(spec sections 2 and 4.1). -/
structure PartitionKey where
  definitionId : String
  tenant : TenantIsolationKey
  bucketStart : Nat
deriving DecidableEq, Repr

/-- Modelled from the spec: the error taxonomy of section 7 (the part
the claims exercise). -/
inductive EngineError
  | InvalidBucket
  | NotFound
  | CrossTenantAccess
deriving DecidableEq, Repr

/-- Modelled from the spec: `derive_key(definition, tenant, time_bucket)`
(spec section 4.1): pure and deterministic, fails with `InvalidBucket`
when the bucket does not align with the declared granularity. -/
def derive_key (d : PreAggregationDefinition) (t : TenantIsolationKey)
    (bucket : Nat) : Except EngineError PartitionKey :=
  if bucket % d.granularity == 0 then
    Except.ok { definitionId := d.id, tenant := t, bucketStart := bucket }
  else
    Except.error EngineError.InvalidBucket

/-- C8: `derive_key` is a pure function (a Lean function of its three
arguments, hence deterministic and side-effect free); it fails with
`InvalidBucket` exactly when the bucket misaligns with the declared
granularity; and successful keys are pairwise distinct across distinct
(definition identifier, tenant, bucket) triples. -/
theorem derive_key_pure_injective_invalid_bucket
    (d₁ d₂ : PreAggregationDefinition) (t₁ t₂ : TenantIsolationKey)
    (b₁ b₂ : Nat) (k₁ k₂ : PartitionKey)
    (h₁ : derive_key d₁ t₁ b₁ = Except.ok k₁)
    (h₂ : derive_key d₂ t₂ b₂ = Except.ok k₂)
    (hne : (d₁.id, t₁, b₁) ≠ (d₂.id, t₂, b₂)) :
    k₁ ≠ k₂
    ∧ (derive_key d₁ t₁ b₁ = derive_key d₁ t₁ b₁)
    ∧ (∀ (d : PreAggregationDefinition) (t : TenantIsolationKey) (b : Nat),
        derive_key d t b = Except.error EngineError.InvalidBucket ↔ ¬ b % d.granularity = 0) := by
  refine ⟨?_, rfl, ?_⟩
  · unfold derive_key at h₁ h₂
    by_cases a₁ : b₁ % d₁.granularity = 0
    · by_cases a₂ : b₂ % d₂.granularity = 0
      · simp [a₁, a₂] at h₁ h₂
        intro hk
        apply hne
        rw [← h₁, ← h₂] at hk
        have h1 := congrArg PartitionKey.definitionId hk
        have h2 := congrArg PartitionKey.tenant hk
        have h3 := congrArg PartitionKey.bucketStart hk
        simp at h1 h2 h3
        simp [h1, h2, h3]
      · simp [a₂] at h₂
    · simp [a₁] at h₁
  · intro d t b
    unfold derive_key
    by_cases a : b % d.granularity = 0 <;> simp [a]

/-- Witness for C8 at concrete inputs: two aligned buckets under one
definition with distinct buckets produce distinct keys, and a
misaligned bucket yields `InvalidBucket`. -/
theorem derive_key_pure_injective_invalid_bucket_witness :
    ({ definitionId := "orders_daily", tenant := ⟨"a", "o"⟩, bucketStart := 0 } : PartitionKey)
      ≠ { definitionId := "orders_daily", tenant := ⟨"a", "o"⟩, bucketStart := 24 } := by
  have h := derive_key_pure_injective_invalid_bucket
    { id := "orders_daily", measures := ["count"], dimensions := ["status"],
      granularity := 24, policy := { kind := PolicyKind.schedule 1, updateWindow := 0 } }
    { id := "orders_daily", measures := ["count"], dimensions := ["status"],
      granularity := 24, policy := { kind := PolicyKind.schedule 1, updateWindow := 0 } }
    ⟨"a", "o"⟩ ⟨"a", "o"⟩ 0 24
    { definitionId := "orders_daily", tenant := ⟨"a", "o"⟩, bucketStart := 0 }
    { definitionId := "orders_daily", tenant := ⟨"a", "o"⟩, bucketStart := 24 }
    rfl rfl (by decide)
  exact h.1

/-! ## Freshness Evaluator (modelled from the spec, section 4.2) -/

/-- Modelled from the spec: a half-open time range `[start, stop)`
(spec section 3). -/
structure TimeRange where
  start : Nat
  stop : Nat
deriving DecidableEq, Repr

/-- Whether a time instant lies inside the half-open range. -/
def TimeRange.containsT (r : TimeRange) (t : Nat) : Bool :=
  r.start ≤ t && t < r.stop

/-- Modelled from the spec: `Partition` (spec section 3): key, time
range, materialized content, last-refreshed timestamp, checksum. -/
structure Partition where
  key : PartitionKey
  range : TimeRange
  content : List Rat
  lastRefreshed : Nat
  checksum : Nat
deriving DecidableEq, Repr

/-- Modelled from the spec: membership in the update window: the most
recent `n` partitions of the definition (the input list is ascending by
time range, as `list_by_definition` returns it). -/
def inUpdateWindow (ps : List Partition) (n : Nat) (p : Partition) : Bool :=
  (ps.reverse.take n).contains p

/-- Modelled from the spec: `is_stale(partition, policy, now)`
(spec section 4.2).  Partitions inside the update window are always
stale; otherwise a schedule policy compares `now - last_refreshed`
against the interval, a condition policy consults the tri-state
callback outcome (only the `stale` outcome marks stale), and an
external-trigger policy is stale only once invalidated. -/
def is_stale (ps : List Partition) (p : Partition) (pol : RefreshPolicy)
    (now : Nat) : Bool :=
  if inUpdateWindow ps pol.updateWindow p then true
  else
    match pol.kind with
    | PolicyKind.schedule interval => decide (interval ≤ now - p.lastRefreshed)
    | PolicyKind.condition outcome => outcome == CondResult.stale
    | PolicyKind.externalTrigger invalidated => invalidated

/-- C7: under a schedule-based policy, a partition inside the update
window is stale on every pass regardless of its timestamp, while a
partition outside the update window is stale exactly when
`now - last_refreshed ≥ interval`. -/
theorem is_stale_schedule_update_window
    (ps : List Partition) (p : Partition) (pol : RefreshPolicy)
    (now interval : Nat) (h : pol.kind = PolicyKind.schedule interval) :
    (inUpdateWindow ps pol.updateWindow p = true → is_stale ps p pol now = true)
    ∧ (inUpdateWindow ps pol.updateWindow p = false →
        (is_stale ps p pol now = true ↔ interval ≤ now - p.lastRefreshed)) := by
  constructor <;> intro hw <;> simp [is_stale, hw, h]

/-- Witness for C7 at a concrete input: an out-of-window partition that
was refreshed at time 0 is stale at time 5 under a 3-unit interval. -/
theorem is_stale_schedule_update_window_witness :
    is_stale [] { key := ⟨"d", ⟨"a", "o"⟩, 0⟩, range := ⟨0, 24⟩, content := [],
                  lastRefreshed := 0, checksum := 0 }
      { kind := PolicyKind.schedule 3, updateWindow := 0 } 5 = true := by
  have h := is_stale_schedule_update_window []
    { key := ⟨"d", ⟨"a", "o"⟩, 0⟩, range := ⟨0, 24⟩, content := [],
      lastRefreshed := 0, checksum := 0 }
    { kind := PolicyKind.schedule 3, updateWindow := 0 } 5 3 rfl
  exact (h.2 (by decide)).mpr (by decide)

/-- C9: under a condition-based policy whose externally supplied
predicate failed transiently (tri-state outcome `unknownError`), a
partition outside the update window is not reported stale: the failed
evaluation is treated as not-yet-known, never as stale. -/
theorem is_stale_condition_unknown_not_stale
    (ps : List Partition) (p : Partition) (pol : RefreshPolicy) (now : Nat)
    (h : pol.kind = PolicyKind.condition CondResult.unknownError)
    (hw : inUpdateWindow ps pol.updateWindow p = false) :
    is_stale ps p pol now = false := by
  simp [is_stale, hw, h]

/-- Witness for C9 at a concrete input: a transient condition failure
leaves the partition non-stale. -/
theorem is_stale_condition_unknown_not_stale_witness :
    is_stale [] { key := ⟨"d", ⟨"a", "o"⟩, 0⟩, range := ⟨0, 24⟩, content := [],
                  lastRefreshed := 0, checksum := 0 }
      { kind := PolicyKind.condition CondResult.unknownError, updateWindow := 0 } 99 = false :=
  is_stale_condition_unknown_not_stale []
    { key := ⟨"d", ⟨"a", "o"⟩, 0⟩, range := ⟨0, 24⟩, content := [],
      lastRefreshed := 0, checksum := 0 }
    { kind := PolicyKind.condition CondResult.unknownError, updateWindow := 0 } 99 rfl (by decide)

/-! ## Pre-Aggregation Store (modelled from the spec, section 4.4) -/

/-- Modelled from the spec: the Pre-Aggregation Store: an association
list from partition keys to committed partitions.  A `put` commits by
erasing any previous entry for the key and prepending the new one in a
single step (the atomic swap of spec sections 3 and 4.4). -/
structure Store where
  entries : List (PartitionKey × Partition)
deriving DecidableEq, Repr

/-- Modelled from the spec: `get(key)` (spec section 4.4): rejects a key
whose tenant differs from the caller's isolation key with
`CrossTenantAccess`, otherwise returns the committed partition or
`NotFound`. -/
def Store.get (s : Store) (caller : TenantIsolationKey) (k : PartitionKey) :
    Except EngineError Partition :=
  if k.tenant ≠ caller then Except.error EngineError.CrossTenantAccess
  else
    match s.entries.lookup k with
    | some p => Except.ok p
    | none => Except.error EngineError.NotFound

/-- Modelled from the spec: `put(key, content, time_range, checksum)`
(spec section 4.4): rejects a cross-tenant key, otherwise atomically
replaces the stored partition together with its last-refreshed
timestamp and checksum. -/
def Store.put (s : Store) (caller : TenantIsolationKey) (k : PartitionKey)
    (content : List Rat) (range : TimeRange) (checksum now : Nat) :
    Except EngineError Store :=
  if k.tenant ≠ caller then Except.error EngineError.CrossTenantAccess
  else
    Except.ok
      { entries :=
          (k, { key := k, range := range, content := content,
                lastRefreshed := now, checksum := checksum })
            :: s.entries.eraseP (fun e => e.1 == k) }

/-- Insertion into a list of partitions ordered by time-range start. -/
def insertByStart (p : Partition) : List Partition → List Partition
  | [] => [p]
  | q :: qs =>
      if p.range.start ≤ q.range.start then p :: q :: qs
      else q :: insertByStart p qs

/-- Insertion sort of partitions by time-range start (ascending). -/
def sortByStart (l : List Partition) : List Partition :=
  l.foldr insertByStart []

/-- Modelled from the spec: `list_by_definition(definition, tenant)`
(spec section 4.4): rejects a cross-tenant request, otherwise returns
the definition's partitions for that tenant ordered by time range
ascending. -/
def Store.list_by_definition (s : Store) (caller : TenantIsolationKey)
    (d : PreAggregationDefinition) (tenant : TenantIsolationKey) :
    Except EngineError (List Partition) :=
  if tenant ≠ caller then Except.error EngineError.CrossTenantAccess
  else
    Except.ok (sortByStart
      ((s.entries.filter
          (fun e => e.1.definitionId == d.id && e.1.tenant == tenant)).map
        (fun e => e.2)))

/-- Well-formedness of a store: every entry stores a partition under its
own key. -/
def Store.Wf (s : Store) : Prop :=
  ∀ e ∈ s.entries, e.2.key = e.1

/-- Membership through `insertByStart` is membership in the input. -/
theorem mem_insertByStart (p x : Partition) (l : List Partition) :
    x ∈ insertByStart p l ↔ x = p ∨ x ∈ l := by
  induction l with
  | nil => simp [insertByStart]
  | cons q qs ih =>
      by_cases h : p.range.start ≤ q.range.start <;>
        simp [insertByStart, h, ih] <;> tauto

/-- Membership through `sortByStart` is membership in the input. -/
theorem mem_sortByStart (x : Partition) (l : List Partition) :
    x ∈ sortByStart l ↔ x ∈ l := by
  induction l with
  | nil => simp [sortByStart]
  | cons q qs ih =>
      unfold sortByStart at ih ⊢
      simp only [List.foldr_cons]
      rw [mem_insertByStart, ih]
      simp

/-- Lookup after erasing a different key is unchanged. -/
theorem lookup_eraseP_ne (k k' : PartitionKey)
    (l : List (PartitionKey × Partition)) (h : k' ≠ k) :
    (l.eraseP (fun e => e.1 == k)).lookup k' = l.lookup k' := by
  induction l with
  | nil => simp
  | cons e es ih =>
      obtain ⟨ek, ep⟩ := e
      by_cases he : ek = k
      · subst he
        have h2 : (k' == ek) = false := by simp [h]
        simp [List.eraseP_cons, List.lookup, h2]
      · have h1 : (ek == k) = false := by simp [he]
        by_cases hk : k' = ek
        · subst hk
          simp [List.eraseP_cons, h1, List.lookup]
        · have h2 : (k' == ek) = false := by simp [hk]
          simp [List.eraseP_cons, h1, List.lookup, h2, ih]

/-- Successful lookup implies the pair is in the list. -/
theorem lookup_mem (k : PartitionKey) (p : Partition)
    (l : List (PartitionKey × Partition)) (h : l.lookup k = some p) :
    (k, p) ∈ l := by
  induction l with
  | nil => simp at h
  | cons e es ih =>
      obtain ⟨ek, ep⟩ := e
      by_cases hk : k = ek
      · subst hk
        simp [List.lookup] at h
        simp [h]
      · have h2 : (k == ek) = false := by simp [hk]
        simp [List.lookup, h2] at h
        simp [ih h]

/-- C5: store operations are tenant-isolated.  Every operation invoked
with a key whose tenant differs from the caller's isolation key fails
with `CrossTenantAccess` (committing no new store state); and on a
well-formed store, a successful `get` or `list_by_definition` only ever
returns partitions of the caller's tenant, while a successful `put`
leaves every other tenant's entries unchanged. -/
theorem store_tenant_isolation
    (s : Store) (caller : TenantIsolationKey) (hwf : Store.Wf s) :
    (∀ k, k.tenant ≠ caller →
        s.get caller k = Except.error EngineError.CrossTenantAccess)
    ∧ (∀ k c r cs n, k.tenant ≠ caller →
        s.put caller k c r cs n = Except.error EngineError.CrossTenantAccess)
    ∧ (∀ d t, t ≠ caller →
        s.list_by_definition caller d t = Except.error EngineError.CrossTenantAccess)
    ∧ (∀ k p, s.get caller k = Except.ok p → p.key.tenant = caller)
    ∧ (∀ k c r cs n s', s.put caller k c r cs n = Except.ok s' →
        ∀ k', k'.tenant ≠ caller → s'.entries.lookup k' = s.entries.lookup k')
    ∧ (∀ d t ps, s.list_by_definition caller d t = Except.ok ps →
        ∀ p ∈ ps, p.key.tenant = caller) := by
  refine ⟨?_, ?_, ?_, ?_, ?_, ?_⟩
  · intro k hk; simp [Store.get, hk]
  · intro k c r cs n hk; simp [Store.put, hk]
  · intro d t ht; simp [Store.list_by_definition, ht]
  · intro k p hget
    unfold Store.get at hget
    by_cases hk : k.tenant = caller
    · simp [hk] at hget
      cases hlook : s.entries.lookup k with
      | none => rw [hlook] at hget; simp at hget
      | some q =>
          rw [hlook] at hget
          simp at hget
          have hm := lookup_mem k q s.entries hlook
          have := hwf (k, q) hm
          rw [← hget, this]
          exact hk
    · simp [hk] at hget
  · intro k c r cs n s' hput k' hk'
    unfold Store.put at hput
    by_cases hk : k.tenant = caller
    · simp [hk] at hput
      have hne : k' ≠ k := by
        intro he; exact hk' (he ▸ hk)
      rw [← hput]
      simp only [List.lookup]
      have h2 : (k' == k) = false := by simp [hne]
      simp [h2]
      exact lookup_eraseP_ne k k' s.entries hne
    · simp [hk] at hput
  · intro d t ps hlist p hp
    unfold Store.list_by_definition at hlist
    by_cases ht : t = caller
    · subst ht
      simp at hlist
      rw [← hlist] at hp
      rw [mem_sortByStart] at hp
      obtain ⟨e, he, hep⟩ := List.mem_map.mp hp
      obtain ⟨hmem, hpred⟩ := List.mem_filter.mp he
      have hkey := hwf e hmem
      simp at hpred
      rw [← hep, hkey]
      exact hpred.2
    · simp [ht] at hlist

/-- Witness for C5 at a concrete input: on a well-formed one-entry
store, a `get` with a foreign tenant key is rejected with
`CrossTenantAccess`. -/
theorem store_tenant_isolation_witness :
    Store.get
      { entries := [(⟨"d", ⟨"a", "o"⟩, 0⟩,
          { key := ⟨"d", ⟨"a", "o"⟩, 0⟩, range := ⟨0, 24⟩, content := [],
            lastRefreshed := 0, checksum := 0 })] }
      ⟨"b", "o"⟩ ⟨"d", ⟨"a", "o"⟩, 0⟩
      = Except.error EngineError.CrossTenantAccess := by
  have h := store_tenant_isolation
      { entries := [(⟨"d", ⟨"a", "o"⟩, 0⟩,
          { key := ⟨"d", ⟨"a", "o"⟩, 0⟩, range := ⟨0, 24⟩, content := [],
            lastRefreshed := 0, checksum := 0 })] }
      ⟨"b", "o"⟩ (by intro e he; simp at he; subst he; rfl)
  exact h.1 ⟨"d", ⟨"a", "o"⟩, 0⟩ (by decide)

/-! ## Refresh execution and atomic commit (modelled from the spec, section 4.3) -/

/-- Modelled from the spec: the transient state of one refresh
execution: the shared store plus a private scratch buffer into which
new partition content is computed from the live source.  Only the
final atomic commit touches the store (spec sections 4.3 and 5). -/
structure RefreshExec where
  store : Store
  staging : List Rat
  stepsDone : Nat
deriving Repr

/-- Start of a refresh execution over a store. -/
def beginRefresh (s : Store) : RefreshExec :=
  { store := s, staging := [], stepsDone := 0 }

/-- One computation step of a refresh: pull the next row of new content
from the live source into the scratch buffer; the store is untouched. -/
def refreshStep (source : Nat → Rat) (e : RefreshExec) : RefreshExec :=
  { store := e.store, staging := e.staging ++ [source e.stepsDone],
    stepsDone := e.stepsDone + 1 }

/-- Run `n` computation steps of a refresh execution. -/
def runSteps (source : Nat → Rat) (e : RefreshExec) : Nat → RefreshExec
  | 0 => e
  | n + 1 => runSteps source (refreshStep source e) n

/-- Modelled from the spec: the atomic commit ending a refresh: a single
`put` replacing the stored partition together with its last-refreshed
timestamp and checksum (spec section 4.3). -/
def commitRefresh (e : RefreshExec) (caller : TenantIsolationKey)
    (k : PartitionKey) (range : TimeRange) (checksum now : Nat) :
    Except EngineError Store :=
  e.store.put caller k e.staging range checksum now

/-- Computation steps never touch the store. -/
theorem runSteps_store (source : Nat → Rat) (e : RefreshExec) (n : Nat) :
    (runSteps source e n).store = e.store := by
  induction n generalizing e with
  | zero => rfl
  | succ m ih => simp [runSteps, refreshStep, ih]

/-- C1: a refresh execution interrupted after any number of steps, before
its atomic commit, leaves the store exactly as previously committed; a
subsequent `get` on any key returns the prior committed partition, with
its prior timestamp and checksum.  Conversely a committed `put` is
atomic with respect to `get`: a reader sees exactly the fully written
new partition, never partial content. -/
theorem refresh_interrupt_atomic
    (s : Store) (source : Nat → Rat) (n : Nat)
    (caller : TenantIsolationKey) (k : PartitionKey) :
    ((runSteps source (beginRefresh s) n).store = s
      ∧ (runSteps source (beginRefresh s) n).store.get caller k = s.get caller k)
    ∧ (∀ (e : RefreshExec) (rng : TimeRange) (cs now : Nat) (s' : Store),
        commitRefresh e caller k rng cs now = Except.ok s' →
        k.tenant = caller →
        s'.get caller k = Except.ok
          { key := k, range := rng, content := e.staging,
            lastRefreshed := now, checksum := cs }) := by
  constructor
  · have hs : (runSteps source (beginRefresh s) n).store = s :=
      runSteps_store source (beginRefresh s) n
    exact ⟨hs, by rw [hs]⟩
  · intro e rng cs now s' hc hk
    unfold commitRefresh Store.put at hc
    rw [if_neg (by simp [hk])] at hc
    simp at hc
    rw [← hc]
    unfold Store.get
    rw [if_neg (by simp [hk])]
    simp [List.lookup]

/-- Witness for C1 at a concrete input: interrupting after 3 steps
leaves a one-partition store answering `get` as before, and committing
a 2-row staging buffer makes `get` return exactly that content. -/
theorem refresh_interrupt_atomic_witness :
    ((runSteps (fun t => (t : Rat)) (beginRefresh
        { entries := [(⟨"d", ⟨"a", "o"⟩, 0⟩,
            { key := ⟨"d", ⟨"a", "o"⟩, 0⟩, range := ⟨0, 24⟩, content := [(7 : Rat)],
              lastRefreshed := 1, checksum := 5 })] }) 3).store.get ⟨"a", "o"⟩
        ⟨"d", ⟨"a", "o"⟩, 0⟩
      = Except.ok { key := ⟨"d", ⟨"a", "o"⟩, 0⟩, range := ⟨0, 24⟩, content := [(7 : Rat)],
                    lastRefreshed := 1, checksum := 5 })
    ∧ (Store.get { entries := [(⟨"d", ⟨"a", "o"⟩, 0⟩,
          { key := ⟨"d", ⟨"a", "o"⟩, 0⟩, range := ⟨0, 24⟩, content := [(1 : Rat), 2],
            lastRefreshed := 9, checksum := 3 })] } ⟨"a", "o"⟩ ⟨"d", ⟨"a", "o"⟩, 0⟩
      = Except.ok { key := ⟨"d", ⟨"a", "o"⟩, 0⟩, range := ⟨0, 24⟩, content := [(1 : Rat), 2],
                    lastRefreshed := 9, checksum := 3 }) := by
  have h := refresh_interrupt_atomic
      { entries := [(⟨"d", ⟨"a", "o"⟩, 0⟩,
          { key := ⟨"d", ⟨"a", "o"⟩, 0⟩, range := ⟨0, 24⟩, content := [(7 : Rat)],
            lastRefreshed := 1, checksum := 5 })] }
      (fun t => (t : Rat)) 3 ⟨"a", "o"⟩ ⟨"d", ⟨"a", "o"⟩, 0⟩
  constructor
  · rw [h.1.2]
    rfl
  · have h2 := h.2 { store := { entries := [] }, staging := [(1 : Rat), 2], stepsDone := 2 }
      ⟨0, 24⟩ 3 9
      { entries := [(⟨"d", ⟨"a", "o"⟩, 0⟩,
          { key := ⟨"d", ⟨"a", "o"⟩, 0⟩, range := ⟨0, 24⟩, content := [(1 : Rat), 2],
            lastRefreshed := 9, checksum := 3 })] }
      (by rfl) rfl
    exact h2

/-! ## Refresh Scheduler (modelled from the spec, section 4.3) -/

/-- Modelled from the spec: state of a `RefreshJob`
(spec section 3): pending, running, succeeded, failed. -/
inductive JobState
  | pending
  | running
  | succeeded
  | failed
deriving DecidableEq, Repr

/-- Modelled from the spec: a transient `RefreshJob` referencing a
partition key, with its state and retry count (spec section 3). -/
structure RefreshJob where
  key : PartitionKey
  state : JobState
  retries : Nat
deriving DecidableEq, Repr

/-- Modelled from the spec: the Refresh Scheduler state: its job list
(spec section 4.3). -/
structure Scheduler where
  jobs : List RefreshJob
deriving DecidableEq, Repr

/-- Modelled from the spec: the events driving the scheduler state
machine `Fresh -> PendingRefresh -> Running -> (Fresh | Failed)`,
with `Failed -> PendingRefresh` after backoff (spec section 4.3). -/
inductive SchedEvent
  | enqueue (k : PartitionKey)
  | start (k : PartitionKey)
  | finishOk (k : PartitionKey)
  | finishFail (k : PartitionKey)
  | requeue (k : PartitionKey)
deriving DecidableEq, Repr

/-- Whether a job is a Running job for the given key. -/
def isRunningFor (k : PartitionKey) (j : RefreshJob) : Bool :=
  j.key == k && j.state == JobState.running

/-- Whether some Running job for the key exists. -/
def hasRunning (jobs : List RefreshJob) (k : PartitionKey) : Bool :=
  jobs.any (isRunningFor k)

/-- Promote the first pending job for the key to Running. -/
def startFirstPending (k : PartitionKey) : List RefreshJob → List RefreshJob
  | [] => []
  | j :: js =>
      if j.key == k && j.state == JobState.pending then
        { j with state := JobState.running } :: js
      else j :: startFirstPending k js

/-- Move the first Running job for the key to a terminal state. -/
def finishFirstRunning (k : PartitionKey) (result : JobState) :
    List RefreshJob → List RefreshJob
  | [] => []
  | j :: js =>
      if isRunningFor k j then { j with state := result } :: js
      else j :: finishFirstRunning k result js

/-- Requeue the first failed job for the key as pending (after backoff). -/
def requeueFailed (k : PartitionKey) : List RefreshJob → List RefreshJob
  | [] => []
  | j :: js =>
      if j.key == k && j.state == JobState.failed then
        { j with state := JobState.pending, retries := j.retries + 1 } :: js
      else j :: requeueFailed k js

/-- Modelled from the spec: one scheduler transition.  A `start`
dispatches only under the per-partition mutual exclusion: if a Running
job for the key already exists, the event is a no-op
(spec sections 4.3 and 5). -/
def schedStep (s : Scheduler) (e : SchedEvent) : Scheduler :=
  match e with
  | SchedEvent.enqueue k =>
      { jobs := s.jobs ++ [{ key := k, state := JobState.pending, retries := 0 }] }
  | SchedEvent.start k =>
      if hasRunning s.jobs k then s else { jobs := startFirstPending k s.jobs }
  | SchedEvent.finishOk k =>
      { jobs := finishFirstRunning k JobState.succeeded s.jobs }
  | SchedEvent.finishFail k =>
      { jobs := finishFirstRunning k JobState.failed s.jobs }
  | SchedEvent.requeue k =>
      { jobs := requeueFailed k s.jobs }

/-- Run the scheduler from the empty initial state over an event trace. -/
def runSched (es : List SchedEvent) : Scheduler :=
  es.foldl schedStep { jobs := [] }

/-- Number of Running jobs for a key. -/
def runningCount (jobs : List RefreshJob) (k : PartitionKey) : Nat :=
  (jobs.filter (isRunningFor k)).length

/-- With no Running job for the key present, the Running count is 0. -/
theorem runningCount_eq_zero_of_not_hasRunning (jobs : List RefreshJob)
    (k : PartitionKey) (h : hasRunning jobs k = false) :
    runningCount jobs k = 0 := by
  unfold hasRunning at h
  unfold runningCount
  rw [List.length_eq_zero, List.filter_eq_nil_iff]
  exact List.any_eq_false.mp h

/-- Starting a pending job for key `k` does not change the Running count
of any other key. -/
theorem runningCount_startFirstPending_ne (k k' : PartitionKey)
    (l : List RefreshJob) (h : k' ≠ k) :
    runningCount (startFirstPending k l) k' = runningCount l k' := by
  induction l with
  | nil => rfl
  | cons j js ih =>
      by_cases hg : (j.key == k && j.state == JobState.pending) = true
      · have hkey : j.key = k := by
          have := (Bool.and_eq_true _ _).mp hg
          exact beq_iff_eq.mp this.1
        have hst : j.state = JobState.pending := by
          have := (Bool.and_eq_true _ _).mp hg
          exact beq_iff_eq.mp this.2
        have hr1 : isRunningFor k' { j with state := JobState.running } = false := by
          simp [isRunningFor, hkey]
          intro he
          exact absurd he.symm h
        have hr2 : isRunningFor k' j = false := by
          simp [isRunningFor, hst]
        simp [startFirstPending, hg, runningCount, List.filter, hr1, hr2]
      · have hr : startFirstPending k (j :: js) = j :: startFirstPending k js := by
          simp [startFirstPending, hg]
        rw [hr]
        unfold runningCount at ih ⊢
        by_cases hj : isRunningFor k' j = true
        · simp [List.filter, hj, ih]
        · simp at hj
          simp [List.filter, hj, ih]

/-- Starting a pending job for key `k` increases the Running count of
`k` by at most one. -/
theorem runningCount_startFirstPending_le (k : PartitionKey)
    (l : List RefreshJob) :
    runningCount (startFirstPending k l) k ≤ runningCount l k + 1 := by
  induction l with
  | nil => simp [startFirstPending, runningCount]
  | cons j js ih =>
      by_cases hg : (j.key == k && j.state == JobState.pending) = true
      · have hkey : j.key = k := by
          have := (Bool.and_eq_true _ _).mp hg
          exact beq_iff_eq.mp this.1
        have hst : j.state = JobState.pending := by
          have := (Bool.and_eq_true _ _).mp hg
          exact beq_iff_eq.mp this.2
        have hr1 : isRunningFor k { j with state := JobState.running } = true := by
          simp [isRunningFor, hkey]
        have hr2 : isRunningFor k j = false := by
          simp [isRunningFor, hst]
        simp [startFirstPending, hg, runningCount, List.filter, hr1, hr2]
      · have hr : startFirstPending k (j :: js) = j :: startFirstPending k js := by
          simp [startFirstPending, hg]
        rw [hr]
        unfold runningCount at ih ⊢
        by_cases hj : isRunningFor k j = true
        · simp [List.filter, hj]
          omega
        · simp at hj
          simp [List.filter, hj]
          omega

/-- Finishing a Running job into a non-Running terminal state never
increases any Running count. -/
theorem runningCount_finishFirstRunning_le (k k' : PartitionKey)
    (r : JobState) (l : List RefreshJob) (hr : (r == JobState.running) = false) :
    runningCount (finishFirstRunning k r l) k' ≤ runningCount l k' := by
  induction l with
  | nil => simp [finishFirstRunning]
  | cons j js ih =>
      by_cases hg : isRunningFor k j = true
      · have hnew : isRunningFor k' { j with state := r } = false := by
          simp [isRunningFor, beq_eq_false_iff_ne.mp hr]
        simp [finishFirstRunning, hg, runningCount, List.filter, hnew]
        by_cases hj : isRunningFor k' j = true
        · simp [hj]
        · simp at hj
          simp [hj]
      · have hstep : finishFirstRunning k r (j :: js) = j :: finishFirstRunning k r js := by
          simp [finishFirstRunning, hg]
        rw [hstep]
        unfold runningCount at ih ⊢
        by_cases hj : isRunningFor k' j = true
        · simp [List.filter, hj]
          omega
        · simp at hj
          simp [List.filter, hj]
          exact ih

/-- Requeueing a failed job as pending never changes any Running count. -/
theorem runningCount_requeueFailed (k k' : PartitionKey)
    (l : List RefreshJob) :
    runningCount (requeueFailed k l) k' = runningCount l k' := by
  induction l with
  | nil => rfl
  | cons j js ih =>
      by_cases hg : (j.key == k && j.state == JobState.failed) = true
      · have hst : j.state = JobState.failed := by
          have := (Bool.and_eq_true _ _).mp hg
          exact beq_iff_eq.mp this.2
        have hnew : isRunningFor k'
            { j with state := JobState.pending, retries := j.retries + 1 } = false := by
          simp [isRunningFor]
        have hold : isRunningFor k' j = false := by
          simp [isRunningFor, hst]
        simp [requeueFailed, hg, runningCount, List.filter, hnew, hold]
      · have hstep : requeueFailed k (j :: js) = j :: requeueFailed k js := by
          simp [requeueFailed, hg]
        rw [hstep]
        unfold runningCount at ih ⊢
        by_cases hj : isRunningFor k' j = true
        · simp [List.filter, hj, ih]
        · simp at hj
          simp [List.filter, hj, ih]

/-- One scheduler transition preserves the at-most-one-Running
invariant. -/
theorem schedStep_invariant (s : Scheduler) (e : SchedEvent)
    (h : ∀ k, runningCount s.jobs k ≤ 1) :
    ∀ k, runningCount (schedStep s e).jobs k ≤ 1 := by
  intro k
  cases e with
  | enqueue k0 =>
      show runningCount
        (s.jobs ++ [{ key := k0, state := JobState.pending, retries := 0 }]) k ≤ 1
      unfold runningCount
      rw [List.filter_append]
      have hnil : List.filter (isRunningFor k)
          [{ key := k0, state := JobState.pending, retries := 0 }] = [] := by
        simp [isRunningFor]
      rw [hnil, List.append_nil]
      exact h k
  | start k0 =>
      by_cases hr : hasRunning s.jobs k0 = true
      · simp [schedStep, hr]
        exact h k
      · simp only [Bool.not_eq_true] at hr
        simp [schedStep, hr]
        by_cases hk : k = k0
        · subst hk
          have h0 := runningCount_eq_zero_of_not_hasRunning s.jobs k hr
          have hle := runningCount_startFirstPending_le k s.jobs
          omega
        · rw [runningCount_startFirstPending_ne k0 k s.jobs hk]
          exact h k
  | finishOk k0 =>
      have hle := runningCount_finishFirstRunning_le k0 k JobState.succeeded s.jobs (by decide)
      exact le_trans hle (h k)
  | finishFail k0 =>
      have hle := runningCount_finishFirstRunning_le k0 k JobState.failed s.jobs (by decide)
      exact le_trans hle (h k)
  | requeue k0 =>
      show runningCount (requeueFailed k0 s.jobs) k ≤ 1
      rw [runningCount_requeueFailed]
      exact h k

/-- C2: under any sequence of refresh attempts driving the scheduler
from its initial state, at most one RefreshJob referencing a given
PartitionKey is Running at any instant. -/
theorem scheduler_at_most_one_running (es : List SchedEvent) (k : PartitionKey) :
    runningCount (runSched es).jobs k ≤ 1 := by
  suffices hgen : ∀ s : Scheduler, (∀ k0, runningCount s.jobs k0 ≤ 1) →
      ∀ k0, runningCount (es.foldl schedStep s).jobs k0 ≤ 1 by
    unfold runSched
    exact hgen { jobs := [] } (by intro k0; simp [runningCount]) k
  induction es with
  | nil =>
      intro s hs
      exact hs
  | cons e rest ih =>
      intro s hs k0
      simp only [List.foldl_cons]
      exact ih (schedStep s e) (schedStep_invariant s e hs) k0

/-! ## Rollup Router (modelled from the spec, section 4.5) -/

/-- Modelled from the spec: `QueryPlan` (spec section 3): served from
partitions, lambda (partitions plus a trailing live range), rejected
under rollup-only mode, or passthrough to the live source. -/
inductive QueryPlan
  | servedFromPartitions (parts : List Partition)
  | lambdaPlan (parts : List Partition) (liveRange : TimeRange)
  | rejectedNoMatchingRollup
  | passthroughToLiveSource
deriving DecidableEq, Repr

/-- Modelled from the spec: an incoming structured query: measures,
dimensions and a requested time range (spec section 6). -/
structure Query where
  measures : List String
  dimensions : List String
  range : TimeRange
deriving DecidableEq, Repr

/-- One candidate definition together with its stored partitions, as
`list_by_definition` returns them (ascending by time range). -/
structure DefWithParts where
  defn : PreAggregationDefinition
  parts : List Partition
deriving DecidableEq, Repr

/-- Modelled from the spec: the router's environment: the definitions
with their partitions, the rollup-only mode flag, and the current
time (spec sections 4.5 and 6). -/
structure RouterEnv where
  defs : List DefWithParts
  rollupOnly : Bool
  now : Nat
deriving DecidableEq, Repr

/-- Step 1 of the routing algorithm: a definition is a candidate when
its dimensions/measures are a superset of what the query needs. -/
def matchesQuery (d : PreAggregationDefinition) (q : Query) : Bool :=
  q.measures.all (fun m => d.measures.contains m) &&
  q.dimensions.all (fun m => d.dimensions.contains m)

/-- Whether two time ranges intersect. -/
def overlapsB (a b : TimeRange) : Bool :=
  decide (max a.start b.start < min a.stop b.stop)

/-- The covering set: the stored partitions whose time range intersects
the query range (with pairwise-disjoint partitions, exactly the ones a
covering plan needs). -/
def coveringSet (ps : List Partition) (r : TimeRange) : List Partition :=
  ps.filter (fun p => overlapsB p.range r)

/-- Whether the union of the partitions' time ranges covers every
instant of the query range. -/
def coversB (ps : List Partition) (r : TimeRange) : Bool :=
  (List.range' r.start (r.stop - r.start)).all
    (fun t => ps.any (fun p => p.range.containsT t))

/-- Whether every partition in the list is non-stale per the freshness
evaluator, in the context of the definition's full partition list. -/
def allFresh (dp : DefWithParts) (ps : List Partition) (now : Nat) : Bool :=
  ps.all (fun p => !(is_stale dp.parts p dp.defn.policy now))

/-- Step 3 test: the candidate's stored partitions fully cover the query
range and every covering partition is non-stale. -/
def qualifies (dp : DefWithParts) (q : Query) (now : Nat) : Bool :=
  coversB (coveringSet dp.parts q.range) q.range &&
  allFresh dp (coveringSet dp.parts q.range) now

/-- Number of partitions a candidate needs to cover the query. -/
def partsNeeded (dp : DefWithParts) (q : Query) : Nat :=
  (coveringSet dp.parts q.range).length

/-- Latest refresh timestamp among a candidate's partitions. -/
def lastRefreshMax (dp : DefWithParts) : Nat :=
  (dp.parts.map (fun p => p.lastRefreshed)).foldr max 0

/-- Tie-break of spec section 4.5: prefer fewest partitions needed, then
the most recent refresh. -/
def betterCandidate (q : Query) (a b : DefWithParts) : Bool :=
  partsNeeded a q < partsNeeded b q ||
    (partsNeeded a q == partsNeeded b q && lastRefreshMax b < lastRefreshMax a)

/-- One fold step of the tie-break selection. -/
def pickStep (q : Query) (acc : Option DefWithParts) (dp : DefWithParts) :
    Option DefWithParts :=
  match acc with
  | none => some dp
  | some best => if betterCandidate q dp best then some dp else some best

/-- Select the preferred qualifying candidate per the tie-break. -/
def pickBest (q : Query) (l : List DefWithParts) : Option DefWithParts :=
  l.foldl (pickStep q) none

/-- Length of the covered prefix of instants starting at `start`, with
fuel `n` bounding the scan. -/
def coveredPrefixLen (ps : List Partition) (start : Nat) : Nat → Nat
  | 0 => 0
  | n + 1 =>
      if ps.any (fun p => p.range.containsT start) then
        1 + coveredPrefixLen ps (start + 1) n
      else 0

/-- Step 4 of the routing algorithm: find a candidate covering a
nonempty prefix of the query range with fresh partitions, leaving a
trailing live window before now. -/
def findLambda (q : Query) (now : Nat) : List DefWithParts → Option (DefWithParts × Nat)
  | [] => none
  | dp :: rest =>
      let m := q.range.start +
        coveredPrefixLen dp.parts q.range.start (q.range.stop - q.range.start)
      if decide (q.range.start < m) && decide (m < q.range.stop) &&
          decide (q.range.stop ≤ now) &&
          allFresh dp (coveringSet dp.parts { start := q.range.start, stop := m }) now then
        some (dp, m)
      else findLambda q now rest

/-- Step 5 outcome: reject under rollup-only mode, otherwise pass
through to the live source. -/
def fallbackPlan (rollupOnly : Bool) : QueryPlan :=
  if rollupOnly then QueryPlan.rejectedNoMatchingRollup
  else QueryPlan.passthroughToLiveSource

/-- Step 4: emit a lambda plan when a candidate covers a strict prefix
with a trailing live window, otherwise fall back to step 5. -/
def lambdaOrFallback (env : RouterEnv) (q : Query)
    (cands : List DefWithParts) : QueryPlan :=
  match findLambda q env.now cands with
  | some (dp, m) =>
      QueryPlan.lambdaPlan
        (coveringSet dp.parts { start := q.range.start, stop := m })
        { start := m, stop := q.range.stop }
  | none => fallbackPlan env.rollupOnly

/-- Step 3: serve fully from the preferred qualifying candidate's
covering partitions, otherwise continue with step 4. -/
def servedOrNext (env : RouterEnv) (q : Query)
    (cands : List DefWithParts) : QueryPlan :=
  match pickBest q (cands.filter (fun dp => qualifies dp q env.now)) with
  | some dp => QueryPlan.servedFromPartitions (coveringSet dp.parts q.range)
  | none => lambdaOrFallback env q cands

/-- Modelled from the spec: `route(query, tenant)` (spec section 4.5):
serve fully from fresh covering partitions if possible, else a lambda
plan over a covered prefix plus a trailing live window, else reject
under rollup-only mode or pass through to the live source. -/
def route (env : RouterEnv) (q : Query) : QueryPlan :=
  let cands := env.defs.filter (fun dp => matchesQuery dp.defn q)
  if cands.isEmpty then fallbackPlan env.rollupOnly
  else servedOrNext env q cands

/-- C4: when no definition covers the query (no candidate matches its
measures and dimensions), `route` rejects with "no matching rollup"
whenever rollup-only mode is enabled — never a passthrough — and passes
through to the live source whenever rollup-only mode is disabled. -/
theorem route_no_matching_definition
    (env : RouterEnv) (q : Query)
    (h : ∀ dp ∈ env.defs, matchesQuery dp.defn q = false) :
    (env.rollupOnly = true → route env q = QueryPlan.rejectedNoMatchingRollup)
    ∧ (env.rollupOnly = false → route env q = QueryPlan.passthroughToLiveSource) := by
  have hcands : env.defs.filter (fun dp => matchesQuery dp.defn q) = [] := by
    rw [List.filter_eq_nil_iff]
    intro dp hdp
    simp [h dp hdp]
  constructor <;> intro hro <;> simp [route, fallbackPlan, hcands, hro]

/-- Concrete definition used by the router witnesses: a count rollup at
daily granularity with an hourly schedule. -/
def demoDefn : PreAggregationDefinition :=
  { id := "orders_daily", measures := ["count"], dimensions := ["status"],
    granularity := 24,
    policy := { kind := PolicyKind.schedule 1, updateWindow := 0 } }

/-- Concrete router environment with one candidate and no partitions,
in rollup-only mode. -/
def demoEnvEmpty : RouterEnv :=
  { defs := [{ defn := demoDefn, parts := [] }], rollupOnly := true, now := 100 }

/-- Concrete query whose measure no definition offers. -/
def demoQueryNoMatch : Query :=
  { measures := ["revenue"], dimensions := [], range := ⟨0, 48⟩ }

/-- Witness for C4 at a concrete input: a one-definition environment
that lacks the requested measure, in rollup-only mode, yields the
rejection plan. -/
theorem route_no_matching_definition_witness :
    route demoEnvEmpty demoQueryNoMatch = QueryPlan.rejectedNoMatchingRollup := by
  have h := route_no_matching_definition demoEnvEmpty demoQueryNoMatch
      (by intro dp hdp; simp [demoEnvEmpty] at hdp; subst hdp; rfl)
  exact h.1 rfl

/-- The tie-break fold over a nonempty accumulator stays defined. -/
theorem foldl_pickStep_isSome (q : Query) (l : List DefWithParts) :
    ∀ best : DefWithParts, ∃ r, List.foldl (pickStep q) (some best) l = some r := by
  induction l with
  | nil => intro best; exact ⟨best, rfl⟩
  | cons x xs ih =>
      intro best
      simp only [List.foldl_cons]
      by_cases hb : betterCandidate q x best = true
      · have hstep : pickStep q (some best) x = some x := by simp [pickStep, hb]
        rw [hstep]
        exact ih x
      · have hstep : pickStep q (some best) x = some best := by simp [pickStep, hb]
        rw [hstep]
        exact ih best

/-- The tie-break fold only ever returns a list member (or its seed). -/
theorem foldl_pickStep_mem (q : Query) (l : List DefWithParts) :
    ∀ (acc : Option DefWithParts) (dp : DefWithParts),
      List.foldl (pickStep q) acc l = some dp → dp ∈ l ∨ acc = some dp := by
  induction l with
  | nil =>
      intro acc dp h
      right
      simpa using h
  | cons x xs ih =>
      intro acc dp h
      simp only [List.foldl_cons] at h
      cases acc with
      | none =>
          have hstep : pickStep q none x = some x := rfl
          rw [hstep] at h
          rcases ih (some x) dp h with hm | he
          · exact Or.inl (List.mem_cons_of_mem x hm)
          · have hxd : x = dp := Option.some.inj he
            exact Or.inl (hxd ▸ List.mem_cons_self x xs)
      | some best =>
          by_cases hb : betterCandidate q x best = true
          · have hstep : pickStep q (some best) x = some x := by simp [pickStep, hb]
            rw [hstep] at h
            rcases ih (some x) dp h with hm | he
            · exact Or.inl (List.mem_cons_of_mem x hm)
            · have hxd : x = dp := Option.some.inj he
              exact Or.inl (hxd ▸ List.mem_cons_self x xs)
          · have hstep : pickStep q (some best) x = some best := by simp [pickStep, hb]
            rw [hstep] at h
            rcases ih (some best) dp h with hm | he
            · exact Or.inl (List.mem_cons_of_mem x hm)
            · exact Or.inr he

/-- On a list containing some element, `pickBest` returns a member. -/
theorem pickBest_some_of_mem (q : Query) (l : List DefWithParts)
    (dp : DefWithParts) (h : dp ∈ l) :
    ∃ r, pickBest q l = some r ∧ r ∈ l := by
  cases l with
  | nil => cases h
  | cons x xs =>
      unfold pickBest
      simp only [List.foldl_cons]
      have hstep : pickStep q none x = some x := rfl
      rw [hstep]
      obtain ⟨r, hr⟩ := foldl_pickStep_isSome q xs x
      refine ⟨r, hr, ?_⟩
      rcases foldl_pickStep_mem q xs (some x) r hr with hm | he
      · exact List.mem_cons_of_mem x hm
      · have : x = r := Option.some.inj he
        exact this ▸ List.mem_cons_self x xs

/-- Pairwise disjointness of the time ranges of a partition list. -/
def DisjointRanges (ps : List Partition) : Prop :=
  List.Pairwise (fun a b : Partition =>
    a.range.stop ≤ b.range.start ∨ b.range.stop ≤ a.range.start) ps

/-- Ascending ordering by range start of a partition list. -/
def AscendingRanges (ps : List Partition) : Prop :=
  List.Pairwise (fun a b : Partition => a.range.start ≤ b.range.start) ps

/-- The covering set of an ascending partition list is ascending. -/
theorem coveringSet_ascending (ps : List Partition) (r : TimeRange)
    (h : AscendingRanges ps) : AscendingRanges (coveringSet ps r) :=
  h.sublist (List.filter_sublist ps)

/-- With pairwise-disjoint partitions, the covering set has no
duplicates. -/
theorem coveringSet_nodup (ps : List Partition) (r : TimeRange)
    (hdisj : DisjointRanges ps) : (coveringSet ps r).Nodup := by
  have hdisc : DisjointRanges (coveringSet ps r) :=
    hdisj.sublist (List.filter_sublist ps)
  refine hdisc.imp_of_mem ?_
  intro a b ha hb hab
  intro he
  subst he
  have haov : overlapsB a.range r = true := by
    have := List.mem_filter.mp ha
    simpa [coveringSet] using this.2
  unfold overlapsB at haov
  have haov' : max a.range.start r.start < min a.range.stop r.stop :=
    of_decide_eq_true haov
  rcases hab with h1 | h1 <;>
    · have h2 : a.range.start < a.range.stop := by
        have := lt_of_le_of_lt (le_max_left _ _) haov'
        exact lt_of_lt_of_le this (min_le_left _ _)
      omega

/-- With pairwise-disjoint partitions, every member of the covering set
is necessary: dropping it breaks coverage of the query range. -/
theorem coveringSet_minimal (ps : List Partition) (r : TimeRange)
    (hdisj : DisjointRanges ps) :
    ∀ p ∈ coveringSet ps r,
      coversB ((coveringSet ps r).erase p) r = false := by
  intro p hp
  have hov : overlapsB p.range r = true := by
    have := List.mem_filter.mp hp
    simpa [coveringSet] using this.2
  unfold overlapsB at hov
  have hov' : max p.range.start r.start < min p.range.stop r.stop :=
    of_decide_eq_true hov
  have hdisc : DisjointRanges (coveringSet ps r) :=
    hdisj.sublist (List.filter_sublist ps)
  have hnodup := coveringSet_nodup ps r hdisj
  by_contra hcon
  rw [Bool.not_eq_false] at hcon
  unfold coversB at hcon
  rw [List.all_eq_true] at hcon
  have htmem : max p.range.start r.start ∈ List.range' r.start (r.stop - r.start) := by
    rw [List.mem_range'_1]
    constructor
    · exact le_max_right _ _
    · have h1 : max p.range.start r.start < r.stop :=
        lt_of_lt_of_le hov' (min_le_right _ _)
      omega
  have hany := hcon _ htmem
  rw [List.any_eq_true] at hany
  obtain ⟨qq, hqq, hcont⟩ := hany
  have hqmem : qq ∈ coveringSet ps r := List.mem_of_mem_erase hqq
  have hqne : qq ≠ p := ((List.Nodup.mem_erase_iff hnodup).mp hqq).1
  have hsym : Symmetric (fun a b : Partition =>
      a.range.stop ≤ b.range.start ∨ b.range.stop ≤ a.range.start) := by
    intro a b hab
    exact hab.symm
  have hdj := List.Pairwise.forall hsym hdisc hqmem hp hqne
  unfold TimeRange.containsT at hcont
  rw [Bool.and_eq_true] at hcont
  have hc1 : qq.range.start ≤ max p.range.start r.start :=
    of_decide_eq_true hcont.1
  have hc2 : max p.range.start r.start < qq.range.stop :=
    of_decide_eq_true hcont.2
  have hp1 : p.range.start ≤ max p.range.start r.start := le_max_left _ _
  have hp2 : max p.range.start r.start < p.range.stop :=
    lt_of_lt_of_le hov' (min_le_left _ _)
  rcases hdj with h1 | h1 <;> omega

/-- C3: when some candidate definition's stored partitions fully cover
the query's requested time range and all covering partitions are
non-stale, `route` returns a served-from-partitions plan listing
exactly the minimal covering set — every listed partition intersects
the range and dropping any one breaks coverage — ordered by time range
ascending. -/
theorem route_served_minimal_cover
    (env : RouterEnv) (q : Query) (dp : DefWithParts)
    (hdisj : ∀ d ∈ env.defs, DisjointRanges d.parts)
    (hasc : ∀ d ∈ env.defs, AscendingRanges d.parts)
    (hmem : dp ∈ env.defs) (hmatch : matchesQuery dp.defn q = true)
    (hqual : qualifies dp q env.now = true) :
    ∃ dp', dp' ∈ env.defs ∧ matchesQuery dp'.defn q = true
      ∧ qualifies dp' q env.now = true
      ∧ route env q = QueryPlan.servedFromPartitions (coveringSet dp'.parts q.range)
      ∧ coversB (coveringSet dp'.parts q.range) q.range = true
      ∧ allFresh dp' (coveringSet dp'.parts q.range) env.now = true
      ∧ AscendingRanges (coveringSet dp'.parts q.range)
      ∧ (∀ p ∈ coveringSet dp'.parts q.range,
          coversB ((coveringSet dp'.parts q.range).erase p) q.range = false) := by
  have hcand : dp ∈ env.defs.filter (fun dp => matchesQuery dp.defn q) :=
    List.mem_filter.mpr ⟨hmem, hmatch⟩
  have hq : dp ∈ (env.defs.filter (fun dp => matchesQuery dp.defn q)).filter
      (fun dp => qualifies dp q env.now) :=
    List.mem_filter.mpr ⟨hcand, hqual⟩
  obtain ⟨dp', hpick, hdp'⟩ := pickBest_some_of_mem q _ dp hq
  have hdp'cand : dp' ∈ env.defs.filter (fun dp => matchesQuery dp.defn q) :=
    (List.mem_filter.mp hdp').1
  have hdp'qual : qualifies dp' q env.now = true := (List.mem_filter.mp hdp').2
  have hdp'mem : dp' ∈ env.defs := (List.mem_filter.mp hdp'cand).1
  have hdp'match : matchesQuery dp'.defn q = true := (List.mem_filter.mp hdp'cand).2
  have hne : (env.defs.filter (fun dp => matchesQuery dp.defn q)).isEmpty = false := by
    rw [List.isEmpty_eq_false]
    exact List.ne_nil_of_mem hcand
  have hroute : route env q
      = QueryPlan.servedFromPartitions (coveringSet dp'.parts q.range) := by
    simp only [route]
    rw [if_neg (by simp [hne])]
    unfold servedOrNext
    rw [hpick]
  have hqual' := hdp'qual
  unfold qualifies at hqual'
  rw [Bool.and_eq_true] at hqual'
  refine ⟨dp', hdp'mem, hdp'match, hdp'qual, hroute, hqual'.1, hqual'.2, ?_, ?_⟩
  · exact coveringSet_ascending dp'.parts q.range (hasc dp' hdp'mem)
  · exact coveringSet_minimal dp'.parts q.range (hdisj dp' hdp'mem)

/-- Concrete partitions for the served-plan witness: two daily
partitions covering days 1 and 2. -/
def demoP1 : Partition :=
  { key := ⟨"orders_daily", ⟨"a", "o"⟩, 0⟩, range := ⟨0, 24⟩, content := [],
    lastRefreshed := 100, checksum := 1 }

/-- Second concrete partition, covering hours 24 to 48. -/
def demoP2 : Partition :=
  { key := ⟨"orders_daily", ⟨"a", "o"⟩, 24⟩, range := ⟨24, 48⟩, content := [],
    lastRefreshed := 100, checksum := 2 }

/-- Concrete candidate with both partitions stored. -/
def demoDp : DefWithParts :=
  { defn := demoDefn, parts := [demoP1, demoP2] }

/-- Concrete router environment where the candidate fully covers the
query range with fresh partitions. -/
def demoEnvServed : RouterEnv :=
  { defs := [demoDp], rollupOnly := true, now := 100 }

/-- Concrete query served entirely from the two partitions. -/
def demoQueryCount : Query :=
  { measures := ["count"], dimensions := [], range := ⟨0, 48⟩ }

/-- Witness for C3 at a concrete input: a query over hours 0 to 48 is
served from exactly the two covering partitions, in time order. -/
theorem route_served_minimal_cover_witness :
    route demoEnvServed demoQueryCount
      = QueryPlan.servedFromPartitions [demoP1, demoP2] := by
  obtain ⟨dp', hmem, hmatch, hqual, hroute, hrest⟩ :=
    route_served_minimal_cover demoEnvServed demoQueryCount demoDp
      (by intro d hd; simp [demoEnvServed] at hd; subst hd
          unfold DisjointRanges; decide)
      (by intro d hd; simp [demoEnvServed] at hd; subst hd
          unfold AscendingRanges; decide)
      (by simp [demoEnvServed]) (by decide) (by decide)
  have hdp : dp' = demoDp := by
    simpa [demoEnvServed] using hmem
  subst hdp
  rw [hroute]
  rfl

/-! ## Lambda combination semantics (modelled from the spec, sections 4.5 and 9) -/

/-- Modelled from the spec: the closed set of aggregation types whose
partial results can be re-aggregated (spec section 9): sum, count,
average as a sum/count pair, min and max. -/
inductive AggType
  | sumA
  | countA
  | avgA
  | minA
  | maxA
deriving DecidableEq, Repr

/-- Partial aggregation result per aggregation type; averages carry
their sum/count pair, min/max are `none` on empty input. -/
inductive AggResult
  | sumR (s : Rat)
  | countR (n : Nat)
  | avgR (s : Rat) (n : Nat)
  | minR (v : Option Rat)
  | maxR (v : Option Rat)
deriving DecidableEq, Repr

/-- Minimum of a list of rationals, `none` on empty input. -/
def minList (xs : List Rat) : Option Rat :=
  xs.foldr (fun x acc =>
    match acc with
    | none => some x
    | some y => some (min x y)) none

/-- Maximum of a list of rationals, `none` on empty input. -/
def maxList (xs : List Rat) : Option Rat :=
  xs.foldr (fun x acc =>
    match acc with
    | none => some x
    | some y => some (max x y)) none

/-- Aggregate a list of row values under one aggregation type. -/
def aggregate (a : AggType) (xs : List Rat) : AggResult :=
  match a with
  | AggType.sumA => AggResult.sumR xs.sum
  | AggType.countA => AggResult.countR xs.length
  | AggType.avgA => AggResult.avgR xs.sum xs.length
  | AggType.minA => AggResult.minR (minList xs)
  | AggType.maxA => AggResult.maxR (maxList xs)

/-- Merge two optional values with a binary operation, treating `none`
as the identity. -/
def mergeOpt (f : Rat → Rat → Rat) : Option Rat → Option Rat → Option Rat
  | none, b => b
  | some x, none => some x
  | some x, some y => some (f x y)

/-- Modelled from the spec: the combinator functions keyed by
aggregation type that re-aggregate two partial results
(spec section 9): partial sums add, counts add, averages combine as
sum/count pairs, min/max merge. -/
def combine (a : AggType) (r₁ r₂ : AggResult) : AggResult :=
  match a, r₁, r₂ with
  | AggType.sumA, AggResult.sumR s₁, AggResult.sumR s₂ => AggResult.sumR (s₁ + s₂)
  | AggType.countA, AggResult.countR n₁, AggResult.countR n₂ => AggResult.countR (n₁ + n₂)
  | AggType.avgA, AggResult.avgR s₁ n₁, AggResult.avgR s₂ n₂ =>
      AggResult.avgR (s₁ + s₂) (n₁ + n₂)
  | AggType.minA, AggResult.minR v₁, AggResult.minR v₂ => AggResult.minR (mergeOpt min v₁ v₂)
  | AggType.maxA, AggResult.maxR v₁, AggResult.maxR v₂ => AggResult.maxR (mergeOpt max v₁ v₂)
  | _, r, _ => r

/-- Rows the live source yields over a half-open time range. -/
def rowsInRange (source : Nat → List Rat) (r : TimeRange) : List Rat :=
  (List.range' r.start (r.stop - r.start)).flatMap source

/-- Minimum distributes over list concatenation via the merge. -/
theorem minList_append (xs ys : List Rat) :
    minList (xs ++ ys) = mergeOpt min (minList xs) (minList ys) := by
  induction xs with
  | nil =>
      cases hys : minList ys with
      | none => simp [minList, mergeOpt] at hys ⊢; rw [hys]
      | some b => simp [minList, mergeOpt] at hys ⊢; rw [hys]
  | cons x xs ih =>
      show (match minList (xs ++ ys) with
            | none => some x
            | some y => some (min x y))
          = mergeOpt min (match minList xs with
            | none => some x
            | some y => some (min x y)) (minList ys)
      rw [ih]
      cases hxs : minList xs with
      | none =>
          cases hys : minList ys with
          | none => rfl
          | some b => rfl
      | some a =>
          cases hys : minList ys with
          | none => rfl
          | some b =>
              show some (min x (min a b)) = some (min (min x a) b)
              rw [min_assoc]

/-- Maximum distributes over list concatenation via the merge. -/
theorem maxList_append (xs ys : List Rat) :
    maxList (xs ++ ys) = mergeOpt max (maxList xs) (maxList ys) := by
  induction xs with
  | nil =>
      cases hys : maxList ys with
      | none => simp [maxList, mergeOpt] at hys ⊢; rw [hys]
      | some b => simp [maxList, mergeOpt] at hys ⊢; rw [hys]
  | cons x xs ih =>
      show (match maxList (xs ++ ys) with
            | none => some x
            | some y => some (max x y))
          = mergeOpt max (match maxList xs with
            | none => some x
            | some y => some (max x y)) (maxList ys)
      rw [ih]
      cases hxs : maxList xs with
      | none =>
          cases hys : maxList ys with
          | none => rfl
          | some b => rfl
      | some a =>
          cases hys : maxList ys with
          | none => rfl
          | some b =>
              show some (max x (max a b)) = some (max (max x a) b)
              rw [max_assoc]

/-- Aggregating a concatenation equals combining the two partial
aggregates, for every aggregation type. -/
theorem aggregate_append (a : AggType) (xs ys : List Rat) :
    aggregate a (xs ++ ys) = combine a (aggregate a xs) (aggregate a ys) := by
  cases a with
  | sumA => simp [aggregate, combine, List.sum_append]
  | countA => simp [aggregate, combine, List.length_append]
  | avgA => simp [aggregate, combine, List.sum_append, List.length_append]
  | minA => simp [aggregate, combine, minList_append]
  | maxA => simp [aggregate, combine, maxList_append]

/-- Splitting a time range at an interior point splits the live rows as
list concatenation. -/
theorem rowsInRange_split (source : Nat → List Rat) (qs m qe : Nat)
    (h₁ : qs ≤ m) (h₂ : m ≤ qe) :
    rowsInRange source { start := qs, stop := m }
        ++ rowsInRange source { start := m, stop := qe }
      = rowsInRange source { start := qs, stop := qe } := by
  have hr := List.range'_append qs (m - qs) (qe - m) 1
  simp only [one_mul, Nat.mul_one] at hr
  rw [Nat.add_comm (qe - m) (m - qs)] at hr
  have h3 : qs + (m - qs) = m := by omega
  have h4 : (m - qs) + (qe - m) = qe - qs := by omega
  rw [h3, h4] at hr
  show (List.range' qs (m - qs)).flatMap source
      ++ (List.range' m (qe - m)).flatMap source
    = (List.range' qs (qe - qs)).flatMap source
  rw [← hr, List.flatMap_append]

/-- The covered-prefix scan never exceeds its fuel. -/
theorem coveredPrefixLen_le (ps : List Partition) (s n : Nat) :
    coveredPrefixLen ps s n ≤ n := by
  induction n generalizing s with
  | zero => simp [coveredPrefixLen]
  | succ k ih =>
      unfold coveredPrefixLen
      by_cases h : ps.any (fun p => p.range.containsT s) = true
      · simp only [h, if_true]
        have := ih (s + 1)
        omega
      · rw [Bool.not_eq_true] at h
        simp [h]

/-- A lambda candidate's split point lies strictly inside the query
range. -/
theorem findLambda_bounds (q : Query) (now : Nat) (l : List DefWithParts)
    (dp : DefWithParts) (m : Nat)
    (h : findLambda q now l = some (dp, m)) :
    q.range.start < m ∧ m < q.range.stop := by
  induction l with
  | nil => simp [findLambda] at h
  | cons x xs ih =>
      simp only [findLambda] at h
      split at h
      · rename_i hguard
        injection h with h1
        injection h1 with h2 h3
        rw [Bool.and_eq_true, Bool.and_eq_true, Bool.and_eq_true] at hguard
        obtain ⟨⟨⟨g1, g2⟩, g3⟩, g4⟩ := hguard
        rw [← h3]
        exact ⟨of_decide_eq_true g1, of_decide_eq_true g2⟩
      · exact ih h

/-- Inversion of a lambda routing outcome: the plan splits the query
range at an interior point, serving the prefix from partitions and the
trailing window live. -/
theorem route_lambda_inv (env : RouterEnv) (q : Query)
    (served : List Partition) (live : TimeRange)
    (h : route env q = QueryPlan.lambdaPlan served live) :
    ∃ (dp : DefWithParts) (m : Nat), q.range.start < m ∧ m < q.range.stop
      ∧ served = coveringSet dp.parts { start := q.range.start, stop := m }
      ∧ live = { start := m, stop := q.range.stop } := by
  simp only [route] at h
  split at h
  · unfold fallbackPlan at h
    split at h <;> simp at h
  · unfold servedOrNext at h
    split at h
    · simp at h
    · unfold lambdaOrFallback at h
      split at h
      · rename_i dp m heq
        injection h with h1 h2
        obtain ⟨hb1, hb2⟩ := findLambda_bounds q env.now _ dp m heq
        exact ⟨dp, m, hb1, hb2, h1.symm, h2.symm⟩
      · unfold fallbackPlan at h
        split at h <;> simp at h

/-- C6: for a query routed to a lambda plan (its range extending past
the covered prefix into a trailing live window), combining the
partition-served sub-range aggregate with the live sub-range aggregate
under the query's aggregation semantics equals aggregating the entire
range directly against the live source — exactly, in the exact
rational model, hence within any floating-point tolerance. -/
theorem lambda_combination_correct
    (env : RouterEnv) (q : Query) (source : Nat → List Rat) (a : AggType)
    (served : List Partition) (live : TimeRange)
    (h : route env q = QueryPlan.lambdaPlan served live) :
    combine a
        (aggregate a (rowsInRange source { start := q.range.start, stop := live.start }))
        (aggregate a (rowsInRange source live))
      = aggregate a (rowsInRange source q.range) := by
  obtain ⟨dp, m, hm1, hm2, hserved, hlive⟩ := route_lambda_inv env q served live h
  subst hlive
  have hsplit := rowsInRange_split source q.range.start m q.range.stop
    (le_of_lt hm1) (le_of_lt hm2)
  show combine a
      (aggregate a (rowsInRange source { start := q.range.start, stop := m }))
      (aggregate a (rowsInRange source { start := m, stop := q.range.stop }))
    = aggregate a (rowsInRange source { start := q.range.start, stop := q.range.stop })
  rw [← hsplit, aggregate_append]

/-- Concrete candidate holding only the day-one partition, forcing a
lambda plan for a two-day query. -/
def demoDpLambda : DefWithParts :=
  { defn := demoDefn, parts := [demoP1] }

/-- Concrete router environment with the single-partition candidate. -/
def demoEnvLambda : RouterEnv :=
  { defs := [demoDpLambda], rollupOnly := false, now := 100 }

/-- Concrete live source: one row of value `t` at each instant `t`. -/
def demoSource : Nat → List Rat :=
  fun t => [(t : Rat)]

/-- Witness for C6 at a concrete input: the two-day query routes to a
lambda plan split at hour 24, and summing the two sub-range aggregates
equals the direct whole-range sum. -/
theorem lambda_combination_correct_witness :
    combine AggType.sumA
        (aggregate AggType.sumA (rowsInRange demoSource { start := 0, stop := 24 }))
        (aggregate AggType.sumA (rowsInRange demoSource { start := 24, stop := 48 }))
      = aggregate AggType.sumA (rowsInRange demoSource { start := 0, stop := 48 }) := by
  have h := lambda_combination_correct demoEnvLambda demoQueryCount demoSource AggType.sumA
      [demoP1] { start := 24, stop := 48 } (by decide)
  exact h
